/-
Verification of the bar data layer of `src/charts/server/data.py`
(chartingWithTradeReview).

Shallow embedding conventions:
- A tz-naive "canonical local" (Eastern) timestamp is modelled as the
  number of seconds since the epoch of its wall-clock reading (`Nat`).
  Calendar dates are day numbers `ts / 86400`; `date.fromisoformat`
  arguments (`start`, `end`) are modelled as day numbers directly, since
  ISO date strings compare exactly like their day numbers.
- Prices and raw volumes are rationals (`ℚ`); Python `round` is modelled
  by `pyRound` (round-half-to-even, as CPython does on floats) and the
  `int(...)` truncation by `pyInt`.
- The trading calendar (`marketdata.calendar.is_trading_day`, with the
  weekday-only fallback defined in the source) is an explicit parameter
  `cal : Nat → Bool` on day numbers; `weekdayCal` is the source's
  fallback (`d.weekday() < 5`).
- The `MarketDataManager` (after `load_bars_from_manager`'s
  normalization to tz-naive ET rows) is a function from a requested
  `(start, end)` day range to the row list it yields.
- The parquet cache for one symbol is a list of `Segment`s: the
  `1min_<start>_<end>` filename fields as day numbers plus the rows the
  file holds (already normalized to tz-naive ET, as the loader does
  per-frame before concatenation).
- Pandas structures: a DataFrame of bars is a `List Row`;
  `sort_values("timestamp")` is a stable sort on `ts`;
  `drop_duplicates(subset=["timestamp"])` keeps the first occurrence of
  each timestamp; `resample(freq)` buckets are computed from the default
  `origin="start_day"` (midnight of the earliest timestamp), left-closed
  and left-labeled, and `.dropna()` drops empty buckets.
-/
import Mathlib

set_option linter.unusedVariables false

namespace ChartData

/-- One OHLCV row of a bar DataFrame.  `ts` is the tz-naive local
timestamp in seconds since epoch; `open_` renders the Python column
`open` (a Lean keyword). -/
structure Row where
  ts : Nat
  open_ : ℚ
  high : ℚ
  low : ℚ
  close : ℚ
  volume : ℚ
deriving DecidableEq, Inhabited

/-- One wire-format bar dict produced by `bars_to_json`. -/
structure JBar where
  time : Nat
  open_ : ℚ
  high : ℚ
  low : ℚ
  close : ℚ
  volume : Int
deriving DecidableEq, Inhabited

/-- A cached parquet segment `1min_<fileStart>_<fileEnd>.parquet` for one
symbol: filename date fields as day numbers, plus its rows. -/
structure Segment where
  fileStart : Nat
  fileEnd : Nat
  rows : List Row
deriving DecidableEq, Inhabited

/-- A `MarketDataManager` (as seen through `load_bars_from_manager`,
i.e. after its exception fallbacks and ET normalization): a map from the
requested day range to the normalized rows it produces. -/
abbrev Manager := Nat → Nat → List Row

/-- `timestamp.dt.hour`: hour-of-day of a naive timestamp. -/
def hourOfDay (ts : Nat) : Nat := ts % 86400 / 3600

/-- `timestamp.dt.minute`: minute-of-hour of a naive timestamp. -/
def minuteOfHour (ts : Nat) : Nat := ts % 3600 / 60

/-- `timestamp.second`: second-of-minute of a naive timestamp. -/
def secOfMinute (ts : Nat) : Nat := ts % 60

/-- Day number (`.date()`) of a naive timestamp. -/
def dayOf (ts : Nat) : Nat := ts / 86400

/-- The weekday-only fallback `_is_trading_day` defined in the source
(`d.weekday() < 5`); 1970-01-01 was a Thursday, weekday 3. -/
def weekdayCal (d : Nat) : Bool := decide ((d + 3) % 7 < 5)

/-- `_filter_trading_days`: remove bars on non-trading days. -/
def filter_trading_days (cal : Nat → Bool) (df : List Row) : List Row :=
  if df.isEmpty then df
  else df.filter (fun r => cal (dayOf r.ts))

/-- The extended-hours session filter applied by the cache loaders
(lines 89-92 / 297-300 of `data.py`):
`(hour >= 4) & (hour * 60 + minute <= 20 * 60)`. -/
def filter_session (df : List Row) : List Row :=
  df.filter (fun r =>
    decide (4 ≤ hourOfDay r.ts) &&
    decide (hourOfDay r.ts * 60 + minuteOfHour r.ts ≤ 20 * 60))

/-- Total order on rows by timestamp (the `sort_values("timestamp")`
key). -/
def rle (a b : Row) : Prop := a.ts ≤ b.ts

instance : DecidableRel rle := fun a b => Nat.decLe a.ts b.ts

instance : IsTotal Row rle := ⟨fun a b => Nat.le_total a.ts b.ts⟩

instance : IsTrans Row rle := ⟨fun _ _ _ => Nat.le_trans⟩

/-- `df.sort_values("timestamp")`. -/
def sortTs (l : List Row) : List Row := List.insertionSort rle l

/-- Helper for `dropDupTs`: drop rows whose timestamp was already
seen. -/
def dropDupTsAux (seen : List Nat) : List Row → List Row
  | [] => []
  | a :: rest =>
    if seen.contains a.ts then dropDupTsAux seen rest
    else a :: dropDupTsAux (a.ts :: seen) rest

/-- `df.drop_duplicates(subset=["timestamp"])`: keep the first
occurrence of each timestamp value. -/
def dropDupTs (l : List Row) : List Row := dropDupTsAux [] l

/-- Helper for `dedupNat`. -/
def dedupNatAux (seen : List Nat) : List Nat → List Nat
  | [] => []
  | a :: rest =>
    if seen.contains a then dedupNatAux seen rest
    else a :: dedupNatAux (a :: seen) rest

/-- Keep the first occurrence of each `Nat` (used for the distinct
resample buckets, in order of first appearance). -/
def dedupNat (l : List Nat) : List Nat := dedupNatAux [] l

/-- `df["timestamp"].max()` (callers guard for non-emptiness). -/
def maxTs : List Row → Nat
  | [] => 0
  | h :: t => t.foldl (fun m r => max m r.ts) h.ts

/-- Earliest timestamp of a series (callers guard for non-emptiness). -/
def minTs : List Row → Nat
  | [] => 0
  | h :: t => t.foldl (fun m r => min m r.ts) h.ts

/-- `load_bars_from_cache`: select the segments whose filename interval
overlaps the request, concatenate, sort, deduplicate timestamps, trim to
`[start 00:00:00, end 23:59:59]`, then session and trading-day filter.
A missing symbol directory is the empty segment list. -/
def load_bars_from_cache (cal : Nat → Bool) (segs : List Segment)
    (start end_ : Nat) : List Row :=
  let frames := segs.filter (fun s =>
    decide (start ≤ s.fileEnd) && decide (s.fileStart ≤ end_))
  if frames.isEmpty then []
  else
    let df := dropDupTs (sortTs (frames.flatMap (fun s => s.rows)))
    let df := df.filter (fun r =>
      decide (start * 86400 ≤ r.ts) && decide (r.ts ≤ (end_ + 1) * 86400 - 1))
    let df := filter_session df
    filter_trading_days cal df

/-- max of two rationals, written as the source's `"max"` aggregation. -/
def qmax (a b : ℚ) : ℚ := if a ≤ b then b else a

/-- min of two rationals, the source's `"min"` aggregation. -/
def qmin (a b : ℚ) : ℚ := if a ≤ b then a else b

/-- `aggregate_bars`' timeframe normalization: the fixed `freq_map`
table for the canonical set, then the regex fallback
`^(\d+)(min|hour|day)$`.  The result is the bucket width in minutes
(`"1h"` = 60, `"1D"` = 1440).  A string matching neither is handed to
pandas verbatim, which rejects it for the timeframes exercised here;
modelled as `none`. -/
def parseFreqMinutes (timeframe : String) : Option Nat :=
  match timeframe with
  | "1min" => some 1
  | "2min" => some 2
  | "3min" => some 3
  | "5min" => some 5
  | "10min" => some 10
  | "15min" => some 15
  | "30min" => some 30
  | "1hour" => some 60
  | "2hour" => some 120
  | "4hour" => some 240
  | "1day" => some 1440
  | s =>
    if s.endsWith "min" then (s.dropRight 3).toNat?
    else if s.endsWith "hour" then ((s.dropRight 4).toNat?).map (fun n => n * 60)
    else if s.endsWith "day" then ((s.dropRight 3).toNat?).map (fun n => n * 1440)
    else none

/-- Resample bucket index of a timestamp, for bucket width `w` seconds
and origin `origin` (pandas `origin="start_day"`). -/
def bucketOf (origin w ts : Nat) : Nat := (ts - origin) / w

/-- Midnight of the earliest timestamp: pandas' default resample origin
`"start_day"`. -/
def originOf (rows : List Row) : Nat := dayOf (minTs rows) * 86400

/-- One aggregated bucket row, per the `.agg` dict of the source:
`open` first, `high` max, `low` min, `close` last, `volume` sum.  `g` is
the bucket's contributing rows in time order; empty buckets are dropped
by the caller (`.dropna()`), so the `[]` case is unreachable there. -/
def aggGroup (label : Nat) (g : List Row) : Row :=
  match g with
  | [] => { ts := label, open_ := 0, high := 0, low := 0, close := 0, volume := 0 }
  | h :: t =>
    { ts := label
      open_ := h.open_
      high := t.foldl (fun m r => qmax m r.high) h.high
      low := t.foldl (fun m r => qmin m r.low) h.low
      close := (t.getLastD h).close
      volume := g.foldl (fun acc r => acc + r.volume) 0 }

/-- `df.resample(freq).agg({...}).dropna()`: group rows by bucket, in
order of first appearance of each bucket (ascending for the time-sorted
inputs every call site supplies), keeping only non-empty buckets, each
labeled by its left edge. -/
def aggregate_core (k origin : Nat) (rows : List Row) : List Row :=
  let w := k * 60
  (dedupNat (rows.map (fun r => bucketOf origin w r.ts))).map
    (fun i => aggGroup (origin + i * w)
      (rows.filter (fun r => decide (bucketOf origin w r.ts = i))))

/-- `aggregate_bars`: normalize the timeframe, pass `"1min"` through
unchanged, otherwise resample; `none` models the pandas error on an
unrecognized frequency string. -/
def aggregate_bars (rows : List Row) (timeframe : String) : Option (List Row) :=
  match parseFreqMinutes timeframe with
  | none => none
  | some k =>
    if timeframe = "1min" then some rows
    else some (aggregate_core k (originOf rows) rows)

/-- CPython `round(x, n)` on a real value: scale by `10^n`, round half
to even, scale back. -/
def pyRound (q : ℚ) (n : Nat) : ℚ :=
  let s := q * (10 : ℚ) ^ n
  let f : Int := ⌊s⌋
  let r : Int :=
    if s - (f : ℚ) < 1/2 then f
    else if (1 : ℚ)/2 < s - (f : ℚ) then f + 1
    else if f % 2 = 0 then f else f + 1
  (r : ℚ) / (10 : ℚ) ^ n

/-- Python `int(x)`: truncation toward zero. -/
def pyInt (q : ℚ) : Int := if 0 ≤ q then ⌊q⌋ else ⌈q⌉

/-- `calendar.timegm` restricted to a `timetuple`'s
day/hour/minute/second fields (the year-month-day part is collapsed to
the day number, matching the timestamp model). -/
def timegm (day h mi s : Nat) : Nat := day * 86400 + h * 3600 + mi * 60 + s

/-- One entry of `bars_to_json`: `timegm(ts.timetuple())` for `time`,
prices rounded to 4 decimals, volume truncated to an integer. -/
def encodeBar (r : Row) : JBar :=
  { time := timegm (dayOf r.ts) (hourOfDay r.ts) (minuteOfHour r.ts) (secOfMinute r.ts)
    open_ := pyRound r.open_ 4
    high := pyRound r.high 4
    low := pyRound r.low 4
    close := pyRound r.close 4
    volume := pyInt r.volume }

/-- `bars_to_json`. -/
def bars_to_json (df : List Row) : List JBar := df.map encodeBar

/-- Wire bar as the spec words it (§4.8): `time` is the naive
seconds-since-epoch value itself — the wall-clock components read back
as if they were UTC, with no timezone conversion —, prices rounded to 4
decimals, volume truncated. -/
def specWireBar (r : Row) : JBar :=
  { time := r.ts
    open_ := pyRound r.open_ 4
    high := pyRound r.high 4
    low := pyRound r.low 4
    close := pyRound r.close 4
    volume := pyInt r.volume }

/-- Lines 230-247 of `fetch_bars`: build the combined series from cache
and manager, and record the `(start, end)` day ranges of the provider
calls made. -/
def fetchPlan (cal : Nat → Bool) (start end_ : Nat)
    (cache : Option (List Segment)) (manager : Option Manager) :
    List Row × List (Nat × Nat) :=
  let df0 := match cache with
    | some segs => load_bars_from_cache cal segs start end_
    | none => []
  match manager with
  | none => (df0, [])
  | some m =>
    if df0.isEmpty then (m start end_, [(start, end_)])
    else
      let cacheMax := dayOf (maxTs df0)
      if cacheMax < end_ then
        let mgrDf := m (cacheMax + 1) end_
        if mgrDf.isEmpty then (df0, [(cacheMax + 1, end_)])
        else (sortTs (df0 ++ mgrDf), [(cacheMax + 1, end_)])
      else (df0, [])

/-- Lines 248-260 of `fetch_bars`: emptiness checks, trading-day
re-filter, optional aggregation, wire encoding.  `none` models the
pandas error escaping on an unrecognized timeframe. -/
def fetchEncode (cal : Nat → Bool) (timeframe : String) (df : List Row) :
    Option (List JBar) :=
  if df.isEmpty then some []
  else
    let df1 := filter_trading_days cal df
    if df1.isEmpty then some []
    else if timeframe = "1min" then some (bars_to_json df1)
    else
      match aggregate_bars df1 timeframe with
      | none => none
      | some df2 => if df2.isEmpty then some [] else some (bars_to_json df2)

/-- `fetch_bars`, instrumented with the list of provider calls it makes
(second component). -/
def fetch_bars (cal : Nat → Bool) (start end_ : Nat) (timeframe : String)
    (cache : Option (List Segment)) (manager : Option Manager) :
    Option (List JBar) × List (Nat × Nat) :=
  let p := fetchPlan cal start end_ cache manager
  (fetchEncode cal timeframe p.1, p.2)

/-- A quote dict of `fetch_quotes`. -/
structure Quote where
  price : ℚ
  change : ℚ
  changePct : ℚ
  prevClose : ℚ
  volume : Int
  source : String
deriving DecidableEq, Inhabited

/-- `_load_latest_bars_from_cache`'s file choice: keep the segment with
the strictly greatest filename end date (first wins on ties, matching
the `>` comparison against the running best). -/
def pickLatest (segs : List Segment) : Option Segment :=
  segs.foldl (fun acc s =>
    match acc with
    | none => some s
    | some b => if b.fileEnd < s.fileEnd then some s else acc) none

/-- `_load_latest_bars_from_cache`: load the latest segment, sort,
deduplicate, session filter, trading-day filter (no range trim). -/
def loadLatest (cal : Nat → Bool) (segs : List Segment) : List Row :=
  match pickLatest segs with
  | none => []
  | some s =>
    if s.rows.isEmpty then []
    else filter_trading_days cal (filter_session (dropDupTs (sortTs s.rows)))

/-- `iloc[-2]` of a list known non-empty enough. -/
def secondLast (l : List Row) : Row := l.dropLast.getLastD default

/-- The per-symbol quote computation of `fetch_quotes` (lines 326-355),
applied to the already-loaded series: require at least 2 rows, resample
to daily, derive price/change/changePct/prevClose. -/
def quoteOf (df : List Row) : Option Quote :=
  if df.isEmpty || df.length < 2 then none
  else
    let dfDaily := aggregate_core 1440 (originOf df) df
    if dfDaily.isEmpty then none
    else
      let last := dfDaily.getLastD default
      let lastClose := last.close
      let lastVol := pyInt last.volume
      let prevClose := if 2 ≤ dfDaily.length then (secondLast dfDaily).close
        else last.open_
      let chg := pyRound (lastClose - prevClose) 4
      let chgPct := if prevClose ≠ 0 then pyRound (chg / prevClose * 100) 2 else 0
      some { price := pyRound lastClose 2
             change := chg
             changePct := chgPct
             prevClose := pyRound prevClose 2
             volume := lastVol
             source := "cache" }

/-- `fetch_quotes`: per symbol, cache takes precedence over the manager
(`if cache_dir: ... elif manager: ... else: continue`); symbols whose
load or quote derivation yields nothing are omitted.  `today` is the
day number of `date.today()`; the manager branch asks for the last 10
days. -/
def fetch_quotes (cal : Nat → Bool) (today : Nat) (syms : List String)
    (cache : Option (String → List Segment)) (manager : Option Manager) :
    List (String × Quote) :=
  syms.filterMap (fun sym =>
    match cache with
    | some c => (quoteOf (loadLatest cal (c sym.toUpper))).map (fun q => (sym, q))
    | none =>
      match manager with
      | some m => (quoteOf (m (today - 10) today)).map (fun q => (sym, q))
      | none => none)

end ChartData

namespace ChartData

/-! ### Concrete fixtures shared by witnesses and counterexamples -/

/-- Constant-price row for concrete instances. -/
def mkRow (ts : Nat) (p v : ℚ) : Row :=
  { ts := ts, open_ := p, high := p, low := p, close := p, volume := v }

/-- 2024-01-17, a Wednesday, as a day number. -/
def wedDay : Nat := 19739

/-- A manager that never returns bars. -/
def mEmpty : Manager := fun _ _ => []

/-- A bar stamped exactly 2024-01-17 20:00:00. -/
def row2000 : Row := mkRow (wedDay * 86400 + 20 * 3600) 100 1000

/-- A cache segment holding only `row2000`. -/
def seg2000 : Segment := { fileStart := wedDay, fileEnd := wedDay, rows := [row2000] }

/-- A bar stamped 2024-01-17 10:00:00. -/
def rowMorning : Row := mkRow (wedDay * 86400 + 10 * 3600) 100 1000

/-- A cache segment holding only `rowMorning`. -/
def segWed : Segment := { fileStart := wedDay, fileEnd := wedDay, rows := [rowMorning] }

/-! ### C7 -/

/-- C7: resampling with timeframe `"1min"` is the identity — for every
bar series, `aggregate_bars` returns the series unchanged. -/
theorem aggregate_bars_one_min_passthrough (rows : List Row) :
    aggregate_bars rows "1min" = some rows := rfl

/-! ### C3 -/

/-- Each encoded bar equals the spec's wire bar: in particular the
`time` field, computed by `timegm` over the timestamp's wall-clock
components, is exactly the naive seconds-since-epoch value (no timezone
conversion). -/
theorem encodeBar_eq_specWireBar (r : Row) : encodeBar r = specWireBar r := by
  unfold encodeBar specWireBar timegm dayOf hourOfDay minuteOfHour secOfMinute
  congr 1
  omega

/-- C3: the wire encoder emits one record per bar; its `time` field is
the Unix-seconds value obtained by reading the bar's tz-naive wall-clock
components as if they were UTC (i.e. the naive seconds-since-epoch value
itself, with no actual timezone conversion), its `open`/`high`/`low`/
`close` are rounded to 4 decimal places, and its `volume` is truncated
to an integer. -/
theorem bars_to_json_wire_format (rows : List Row) :
    bars_to_json rows = rows.map specWireBar := by
  have h : encodeBar = specWireBar := funext encodeBar_eq_specWireBar
  simp only [bars_to_json, h]

/-! ### C8 -/

/-- C8: the fetch pipeline is deterministic — two `fetch_bars` runs with
identical arguments against an unchanged cache state and an unchanged
provider yield identical wire output (the pipeline is a pure function of
its inputs; no hidden state enters the result). -/
theorem fetch_bars_deterministic (cal : Nat → Bool) (start end_ : Nat)
    (tf : String) (c₁ c₂ : Option (List Segment)) (m₁ m₂ : Option Manager)
    (hc : c₁ = c₂) (hm : m₁ = m₂) :
    fetch_bars cal start end_ tf c₁ m₁ = fetch_bars cal start end_ tf c₂ m₂ := by
  subst hc; subst hm; rfl

/-- Witness for C8 at a concrete cache and provider. -/
theorem fetch_bars_deterministic_witness :
    (some [segWed] : Option (List Segment)) = some [segWed] ∧
    fetch_bars weekdayCal 19739 19741 "1min" (some [segWed]) (some mEmpty)
      = fetch_bars weekdayCal 19739 19741 "1min" (some [segWed]) (some mEmpty) :=
  ⟨rfl, fetch_bars_deterministic weekdayCal 19739 19741 "1min"
    (some [segWed]) (some [segWed]) (some mEmpty) (some mEmpty) rfl rfl⟩

/-! ### C5 -/

/-- Counterexample to C5: a cache series containing a bar stamped
exactly 20:00:00 local time retains that bar — the session filter's
upper bound is inclusive of the whole 20:00 minute, not exclusive of
20:00. -/
theorem load_bars_from_cache_retains_exact_2000 :
    load_bars_from_cache weekdayCal [seg2000] 19739 19739 = [row2000] ∧
    hourOfDay row2000.ts = 20 ∧ minuteOfHour row2000.ts = 0 ∧
    secOfMinute row2000.ts = 0 := by decide

/-- C5 amended: the session filter retains exactly the rows whose local
time-of-day `t` satisfies `04:00:00 ≤ t < 20:01:00` (the code keeps
`hour ≥ 4` and `hour*60 + minute ≤ 1200`): a bar stamped 04:00:00 is
retained, a bar stamped exactly 20:00:00 is also retained, and exclusion
begins at 20:01:00. -/
theorem filter_session_mem_iff (rows : List Row) (r : Row) :
    r ∈ filter_session rows ↔
      r ∈ rows ∧ 4 * 3600 ≤ r.ts % 86400 ∧ r.ts % 86400 < 20 * 3600 + 60 := by
  simp only [filter_session, List.mem_filter, Bool.and_eq_true, decide_eq_true_eq,
    hourOfDay, minuteOfHour]
  constructor
  · rintro ⟨h1, h2, h3⟩
    exact ⟨h1, by omega, by omega⟩
  · rintro ⟨h1, h2, h3⟩
    exact ⟨h1, by omega, by omega⟩

end ChartData

namespace ChartData

/-! ### C1 -/

/-- C1: with both a cache and a provider configured and a non-empty
cache result, the orchestrator makes exactly one provider call, for
`[cache_max + 1, end]` — so no call covers any date on or before
`cache_max` — when `cache_max` is before the end date, and no provider
call at all when `cache_max` is on or after the end date. -/
theorem fetch_bars_uncovered_tail (cal : Nat → Bool) (segs : List Segment)
    (start end_ : Nat) (tf : String) (m : Manager)
    (hne : load_bars_from_cache cal segs start end_ ≠ []) :
    (dayOf (maxTs (load_bars_from_cache cal segs start end_)) < end_ →
      (fetch_bars cal start end_ tf (some segs) (some m)).2
        = [(dayOf (maxTs (load_bars_from_cache cal segs start end_)) + 1, end_)] ∧
      ∀ p ∈ (fetch_bars cal start end_ tf (some segs) (some m)).2,
        dayOf (maxTs (load_bars_from_cache cal segs start end_)) < p.1) ∧
    (end_ ≤ dayOf (maxTs (load_bars_from_cache cal segs start end_)) →
      (fetch_bars cal start end_ tf (some segs) (some m)).2 = []) := by
  have hsnd : (fetch_bars cal start end_ tf (some segs) (some m)).2
      = (fetchPlan cal start end_ (some segs) (some m)).2 := rfl
  have hie : (load_bars_from_cache cal segs start end_).isEmpty = false := by
    cases h : load_bars_from_cache cal segs start end_
    · exact absurd h hne
    · rfl
  rw [hsnd]
  unfold fetchPlan
  simp only [hie, Bool.false_eq_true, if_false]
  constructor
  · intro hlt
    simp only [if_pos hlt]
    constructor
    · split <;> rfl
    · intro p hp
      split at hp <;>
        simp only [List.mem_singleton] at hp <;> subst hp <;> omega
  · intro hge
    simp only [if_neg (Nat.not_lt.mpr hge)]

/-- Witness for C1: a cache covering only Wednesday 2024-01-17 with a
request ending 2024-01-19 triggers exactly the call `(19740, 19741)`,
i.e. `2024-01-18 .. 2024-01-19`. -/
theorem fetch_bars_uncovered_tail_witness :
    load_bars_from_cache weekdayCal [segWed] 19739 19741 ≠ [] ∧
    dayOf (maxTs (load_bars_from_cache weekdayCal [segWed] 19739 19741)) < 19741 ∧
    (fetch_bars weekdayCal 19739 19741 "1min" (some [segWed]) (some mEmpty)).2
      = [(19740, 19741)] := by
  refine ⟨by decide, by decide, ?_⟩
  exact (fetch_bars_uncovered_tail weekdayCal [segWed] 19739 19741 "1min" mEmpty
    (by decide)).1 (by decide) |>.1

/-! ### C10 -/

/-- If a symbol's quote derivation yields nothing, no entry keyed by
that symbol appears in the `fetch_quotes` result. -/
theorem fetch_quotes_lookup_eq_none (cal : Nat → Bool) (today : Nat)
    (syms : List String) (c : String → List Segment) (mgr : Option Manager)
    (sym : String) (h : quoteOf (loadLatest cal (c sym.toUpper)) = none) :
    (fetch_quotes cal today syms (some c) mgr).lookup sym = none := by
  induction syms with
  | nil => rfl
  | cons s t ih =>
    simp only [fetch_quotes, List.filterMap_cons] at ih ⊢
    cases hq : quoteOf (loadLatest cal (c s.toUpper)) with
    | none => simpa [hq] using ih
    | some q =>
      by_cases hs : sym = s
      · subst hs
        rw [h] at hq
        cases hq
      · have hbeq : (sym == s) = false := beq_eq_false_iff_ne.mpr hs
        simp only [List.lookup, hbeq]
        exact ih

/-- C10: in `fetch_quotes` a configured cache takes strict precedence
over the manager — the result does not depend on the manager at all —
and a symbol whose cache load yields no rows is simply omitted from the
result map. -/
theorem fetch_quotes_cache_precedence (cal : Nat → Bool) (today : Nat)
    (syms : List String) (c : String → List Segment) (m₁ m₂ : Option Manager)
    (sym : String)
    (hempty : loadLatest cal (c sym.toUpper) = []) :
    fetch_quotes cal today syms (some c) m₁ = fetch_quotes cal today syms (some c) m₂ ∧
    (fetch_quotes cal today syms (some c) m₁).lookup sym = none := by
  refine ⟨rfl, ?_⟩
  exact fetch_quotes_lookup_eq_none cal today syms c m₁ sym (by rw [hempty]; rfl)

/-- A cache with no segments for any symbol. -/
def cacheNone : String → List Segment := fun _ => []

/-- A manager returning one morning bar for any request. -/
def mOne : Manager := fun _ _ => [rowMorning]

/-- Witness for C10: with an empty cache configured, swapping the
manager (absent vs. one that has data) leaves the result unchanged, and
the symbol is omitted. -/
theorem fetch_quotes_cache_precedence_witness :
    loadLatest weekdayCal (cacheNone "ZZZZ".toUpper) = [] ∧
    fetch_quotes weekdayCal 19739 ["ZZZZ"] (some cacheNone) none
      = fetch_quotes weekdayCal 19739 ["ZZZZ"] (some cacheNone) (some mOne) ∧
    (fetch_quotes weekdayCal 19739 ["ZZZZ"] (some cacheNone) none).lookup "ZZZZ" = none := by
  refine ⟨by decide, ?_, ?_⟩
  · exact (fetch_quotes_cache_precedence weekdayCal 19739 ["ZZZZ"] cacheNone
      none (some mOne) "ZZZZ" (by decide)).1
  · exact (fetch_quotes_cache_precedence weekdayCal 19739 ["ZZZZ"] cacheNone
      none (some mOne) "ZZZZ" (by decide)).2

end ChartData

namespace ChartData

/-! ### C4 -/

/-- `dedupNat` on a non-empty list keeps its head. -/
theorem dedupNat_cons (x : Nat) (l : List Nat) :
    dedupNat (x :: l) = x :: dedupNatAux [x] l := rfl

/-- A series with fewer than 2 rows yields no quote. -/
theorem quoteOf_eq_none_of_short (df : List Row) (h : df.length < 2) :
    quoteOf df = none := by
  unfold quoteOf
  have hd : decide (df.length < 2) = true := decide_eq_true h
  have hc : (df.isEmpty || decide (df.length < 2)) = true := by simp [hd]
  rw [if_pos hc]

/-- A series with at least 2 rows always yields a quote (its daily
resample is non-empty). -/
theorem quoteOf_isSome_of_long (df : List Row) (h : 2 ≤ df.length) :
    (quoteOf df).isSome = true := by
  match df, h with
  | a :: b :: l2, _ =>
    unfold quoteOf
    have hlen : ¬ ((a :: b :: l2 : List Row).length < 2) := by
      simp only [List.length_cons]
      omega
    have hc : ((a :: b :: l2 : List Row).isEmpty || decide ((a :: b :: l2 : List Row).length < 2)) = false := by
      simp [hlen]
    rw [if_neg (by simp [hc])]
    have hdaily :
        (aggregate_core 1440 (originOf (a :: b :: l2)) (a :: b :: l2)).isEmpty = false := by
      unfold aggregate_core
      simp only [List.map_cons, dedupNat_cons]
      rfl
    rw [if_neg (by simp [hdaily])]
    rfl

/-- If a symbol in the list has at least 2 cached rows, the quote map
contains it. -/
theorem fetch_quotes_lookup_isSome (cal : Nat → Bool) (today : Nat)
    (syms : List String) (c : String → List Segment) (mgr : Option Manager)
    (sym : String) (hmem : sym ∈ syms)
    (h : 2 ≤ (loadLatest cal (c sym.toUpper)).length) :
    ((fetch_quotes cal today syms (some c) mgr).lookup sym).isSome = true := by
  induction syms with
  | nil => cases hmem
  | cons s t ih =>
    simp only [fetch_quotes, List.filterMap_cons] at ih ⊢
    by_cases hs : sym = s
    · subst hs
      obtain ⟨q, hq⟩ := Option.isSome_iff_exists.mp (quoteOf_isSome_of_long _ h)
      rw [hq]
      simp [List.lookup]
    · cases hmem with
      | head => exact absurd rfl hs
      | tail _ hmem2 =>
        cases hq : quoteOf (loadLatest cal (c s.toUpper)) with
        | none => simpa [hq] using ih hmem2
        | some q =>
          have hbeq : (sym == s) = false := beq_eq_false_iff_ne.mpr hs
          simp only [List.lookup, hbeq]
          exact ih hmem2

/-- Two 1-minute bars in the same day: 2024-01-17 09:30 and 09:31. -/
def rowQ1 : Row := mkRow (wedDay * 86400 + 9 * 3600 + 1800) 100 500

/-- Second same-day bar, one minute later. -/
def rowQ2 : Row := mkRow (wedDay * 86400 + 9 * 3600 + 1860) 101 600

/-- A segment holding only the two same-day bars. -/
def segQ : Segment := { fileStart := wedDay, fileEnd := wedDay, rows := [rowQ1, rowQ2] }

/-- A cache answering `[segQ]` for every symbol. -/
def cacheQ : String → List Segment := fun _ => [segQ]

/-- Counterexample to C4: a symbol whose available series aggregates to
exactly one daily bar (two 1-minute rows on a single day) still receives
a quote — `fetch_quotes` gates on the number of 1-minute rows, not on
the number of daily bars. -/
theorem fetch_quotes_single_daily_bar_quote_present :
    (aggregate_core 1440 (originOf (loadLatest weekdayCal (cacheQ "AAPL")))
        (loadLatest weekdayCal (cacheQ "AAPL"))).length = 1 ∧
    ((fetch_quotes weekdayCal 19739 ["AAPL"] (some cacheQ) none).lookup "AAPL").isSome
      = true := by
  decide

/-- C4 amended: with a cache configured, a symbol in the request list is
present in the `fetch_quotes` result exactly when its loaded series has
at least 2 (1-minute) rows; fewer than 2 rows — in particular any series
aggregating to zero daily bars — yields "no quote" (the symbol is
absent, not an error), while a single daily bar built from ≥2 rows still
yields a quote. -/
theorem fetch_quotes_present_iff_two_rows (cal : Nat → Bool) (today : Nat)
    (syms : List String) (c : String → List Segment) (mgr : Option Manager)
    (sym : String) (hmem : sym ∈ syms) :
    ((fetch_quotes cal today syms (some c) mgr).lookup sym).isSome = true ↔
      2 ≤ (loadLatest cal (c sym.toUpper)).length := by
  constructor
  · intro hsome
    by_contra hlt
    rw [fetch_quotes_lookup_eq_none cal today syms c mgr sym
      (quoteOf_eq_none_of_short _ (by omega))] at hsome
    cases hsome
  · exact fetch_quotes_lookup_isSome cal today syms c mgr sym hmem

/-- Witness for amended C4 at the concrete two-row cache. -/
theorem fetch_quotes_present_iff_two_rows_witness :
    ("AAPL" ∈ ["AAPL"]) ∧
    (((fetch_quotes weekdayCal 19739 ["AAPL"] (some cacheQ) none).lookup "AAPL").isSome
        = true ↔
      2 ≤ (loadLatest weekdayCal (cacheQ "AAPL".toUpper)).length) :=
  ⟨by decide,
    fetch_quotes_present_iff_two_rows weekdayCal 19739 ["AAPL"] cacheQ none "AAPL"
      (by decide)⟩

end ChartData

namespace ChartData

/-! ### C9 -/

/-- Any trading-day row of the series entering the encode stage appears
(encoded) in the `"1min"` output: no session-window condition is imposed
there. -/
theorem encode_mem_fetchEncode (cal : Nat → Bool) (df : List Row) (r : Row)
    (hr : r ∈ df) (hcal : cal (dayOf r.ts) = true) :
    encodeBar r ∈ (fetchEncode cal "1min" df).getD [] := by
  have hne : df.isEmpty = false := by
    cases df
    · cases hr
    · rfl
  unfold fetchEncode
  rw [if_neg (by simp [hne])]
  have hr1 : r ∈ filter_trading_days cal df := by
    unfold filter_trading_days
    rw [if_neg (by simp [hne])]
    exact List.mem_filter.mpr ⟨hr, hcal⟩
  have hne1 : (filter_trading_days cal df).isEmpty = false := by
    cases h : filter_trading_days cal df
    · rw [h] at hr1
      cases hr1
    · rfl
  rw [if_neg (by simp [hne1]), if_pos rfl]
  simp only [Option.getD_some]
  exact List.mem_map_of_mem encodeBar hr1

/-- C9: the session-window filter applies only to cache-loaded bars.  A
provider-sourced bar on a trading day is included in the wire output
regardless of its time-of-day — both when the provider serves the whole
range (empty cache) and when it serves the uncovered tail appended to a
non-empty cache result. -/
theorem fetch_bars_provider_rows_bypass_session (cal : Nat → Bool)
    (start end_ : Nat) (m : Manager) (r : Row)
    (hcal : cal (dayOf r.ts) = true) :
    (r ∈ m start end_ →
      encodeBar r ∈ ((fetch_bars cal start end_ "1min" none (some m)).1).getD []) ∧
    (∀ segs, load_bars_from_cache cal segs start end_ ≠ [] →
      dayOf (maxTs (load_bars_from_cache cal segs start end_)) < end_ →
      r ∈ m (dayOf (maxTs (load_bars_from_cache cal segs start end_)) + 1) end_ →
      encodeBar r ∈ ((fetch_bars cal start end_ "1min" (some segs) (some m)).1).getD []) := by
  constructor
  · intro hr
    exact encode_mem_fetchEncode cal (m start end_) r hr hcal
  · intro segs hne hlt hr
    have hie : (load_bars_from_cache cal segs start end_).isEmpty = false := by
      cases h : load_bars_from_cache cal segs start end_
      · exact absurd h hne
      · rfl
    have hmie : (m (dayOf (maxTs (load_bars_from_cache cal segs start end_)) + 1) end_).isEmpty
        = false := by
      cases h : m (dayOf (maxTs (load_bars_from_cache cal segs start end_)) + 1) end_
      · rw [h] at hr
        cases hr
      · rfl
    have h0 : (fetchPlan cal start end_ (some segs) (some m)).1
        = sortTs (load_bars_from_cache cal segs start end_
            ++ m (dayOf (maxTs (load_bars_from_cache cal segs start end_)) + 1) end_) := by
      unfold fetchPlan
      simp only [hie, Bool.false_eq_true, if_false]
      rw [if_pos hlt, if_neg (by simp [hmie])]
    have hmem : r ∈ (fetchPlan cal start end_ (some segs) (some m)).1 := by
      rw [h0]
      exact (List.perm_insertionSort rle _).mem_iff.mpr
        (List.mem_append_right _ hr)
    exact encode_mem_fetchEncode cal _ r hmem hcal

/-- A provider bar stamped 2024-01-17 22:00 — outside the 04:00-20:00
session window. -/
def rowLate : Row := mkRow (wedDay * 86400 + 22 * 3600) 100 1000

/-- A manager serving only the late bar. -/
def mLate : Manager := fun _ _ => [rowLate]

/-- Witness for C9: the 22:00 provider bar on a trading Wednesday shows
up in the wire output. -/
theorem fetch_bars_provider_rows_bypass_session_witness :
    weekdayCal (dayOf rowLate.ts) = true ∧ rowLate ∈ mLate 19739 19739 ∧
    encodeBar rowLate
      ∈ ((fetch_bars weekdayCal 19739 19739 "1min" none (some mLate)).1).getD [] := by
  refine ⟨by decide, by decide, ?_⟩
  exact (fetch_bars_provider_rows_bypass_session weekdayCal 19739 19739 mLate rowLate
    (by decide)).1 (by decide)

end ChartData

namespace ChartData

/-! ### C2 -/

/-- Elements surviving `dedupNatAux` come from the input list. -/
theorem mem_dedupNatAux (seen l : List Nat) (i : Nat)
    (h : i ∈ dedupNatAux seen l) : i ∈ l := by
  induction l generalizing seen with
  | nil => cases h
  | cons a rest ih =>
    unfold dedupNatAux at h
    by_cases hc : seen.contains a = true
    · rw [if_pos hc] at h
      exact List.mem_cons_of_mem _ (ih _ h)
    · rw [if_neg hc] at h
      cases h with
      | head => exact List.mem_cons_self _ _
      | tail _ h2 => exact List.mem_cons_of_mem _ (ih _ h2)

/-- `qmax` dominates its left argument. -/
theorem le_qmax_left (a b : ℚ) : a ≤ qmax a b := by
  unfold qmax
  split
  · assumption
  · exact le_refl a

/-- `qmax` dominates its right argument. -/
theorem le_qmax_right (a b : ℚ) : b ≤ qmax a b := by
  unfold qmax
  split
  · exact le_refl b
  · exact le_of_not_le (by assumption)

/-- `qmin` is below its left argument. -/
theorem qmin_le_left (a b : ℚ) : qmin a b ≤ a := by
  unfold qmin
  split
  · exact le_refl a
  · exact le_of_not_le (by assumption)

/-- `qmin` is below its right argument. -/
theorem qmin_le_right (a b : ℚ) : qmin a b ≤ b := by
  unfold qmin
  split
  · assumption
  · exact le_refl b

/-- The running `qmax` fold dominates its seed and every folded
value. -/
theorem foldl_qmax_le (f : Row → ℚ) (t : List Row) (a : ℚ) :
    a ≤ t.foldl (fun m r => qmax m (f r)) a ∧
    ∀ r ∈ t, f r ≤ t.foldl (fun m r => qmax m (f r)) a := by
  induction t generalizing a with
  | nil =>
    refine ⟨le_refl a, ?_⟩
    intro r hr
    cases hr
  | cons b rest ih =>
    simp only [List.foldl_cons]
    obtain ⟨h1, h2⟩ := ih (qmax a (f b))
    refine ⟨le_trans (le_qmax_left a (f b)) h1, ?_⟩
    intro r hr
    cases hr with
    | head => exact le_trans (le_qmax_right a (f b)) h1
    | tail _ hr2 => exact h2 r hr2

/-- The running `qmax` fold returns its seed or one of the folded
values. -/
theorem foldl_qmax_mem (f : Row → ℚ) (t : List Row) (a : ℚ) :
    t.foldl (fun m r => qmax m (f r)) a = a ∨
    ∃ r ∈ t, t.foldl (fun m r => qmax m (f r)) a = f r := by
  induction t generalizing a with
  | nil => exact Or.inl rfl
  | cons b rest ih =>
    simp only [List.foldl_cons]
    rcases ih (qmax a (f b)) with h | ⟨r, hr, heq⟩
    · rw [h]
      unfold qmax
      split
      · exact Or.inr ⟨b, List.mem_cons_self b rest, rfl⟩
      · exact Or.inl rfl
    · exact Or.inr ⟨r, List.mem_cons_of_mem b hr, heq⟩

/-- The running `qmin` fold is below its seed and every folded value. -/
theorem foldl_qmin_le (f : Row → ℚ) (t : List Row) (a : ℚ) :
    t.foldl (fun m r => qmin m (f r)) a ≤ a ∧
    ∀ r ∈ t, t.foldl (fun m r => qmin m (f r)) a ≤ f r := by
  induction t generalizing a with
  | nil =>
    refine ⟨le_refl a, ?_⟩
    intro r hr
    cases hr
  | cons b rest ih =>
    simp only [List.foldl_cons]
    obtain ⟨h1, h2⟩ := ih (qmin a (f b))
    refine ⟨le_trans h1 (qmin_le_left a (f b)), ?_⟩
    intro r hr
    cases hr with
    | head => exact le_trans h1 (qmin_le_right a (f b))
    | tail _ hr2 => exact h2 r hr2

/-- The running `qmin` fold returns its seed or one of the folded
values. -/
theorem foldl_qmin_mem (f : Row → ℚ) (t : List Row) (a : ℚ) :
    t.foldl (fun m r => qmin m (f r)) a = a ∨
    ∃ r ∈ t, t.foldl (fun m r => qmin m (f r)) a = f r := by
  induction t generalizing a with
  | nil => exact Or.inl rfl
  | cons b rest ih =>
    simp only [List.foldl_cons]
    rcases ih (qmin a (f b)) with h | ⟨r, hr, heq⟩
    · rw [h]
      unfold qmin
      split
      · exact Or.inl rfl
      · exact Or.inr ⟨b, List.mem_cons_self b rest, rfl⟩
    · exact Or.inr ⟨r, List.mem_cons_of_mem b hr, heq⟩

/-- The volume fold is the seed plus the sum of volumes. -/
theorem foldl_add_volume (g : List Row) (a : ℚ) :
    g.foldl (fun acc r => acc + r.volume) a = a + (g.map (fun r => r.volume)).sum := by
  induction g generalizing a with
  | nil => simp
  | cons b rest ih =>
    simp only [List.foldl_cons, List.map_cons, List.sum_cons]
    rw [ih]
    ring

end ChartData

namespace ChartData

/-- C2: every bar of a resampled series (coarser than `"1min"`) is the
OHLCV aggregate of a non-empty bucket: `open` is the first contributing
row's open, `high` the maximum of highs, `low` the minimum of lows,
`close` the last contributing row's close, `volume` the sum of volumes;
buckets with no contributing rows produce no output bar at all. -/
theorem aggregate_bars_bucket_ohlcv (rows : List Row) (tf : String) (k : Nat)
    (out : List Row) (b : Row)
    (hk : parseFreqMinutes tf = some k) (h1 : tf ≠ "1min")
    (hout : aggregate_bars rows tf = some out) (hb : b ∈ out) :
    ∃ i g, g = rows.filter (fun r => decide (bucketOf (originOf rows) (k * 60) r.ts = i)) ∧
      g ≠ [] ∧
      b.ts = originOf rows + i * (k * 60) ∧
      b.open_ = (g.headD default).open_ ∧
      b.close = (g.getLastD default).close ∧
      (b.high ∈ g.map (fun r => r.high) ∧ ∀ r ∈ g, r.high ≤ b.high) ∧
      (b.low ∈ g.map (fun r => r.low) ∧ ∀ r ∈ g, b.low ≤ r.low) ∧
      b.volume = (g.map (fun r => r.volume)).sum := by
  unfold aggregate_bars at hout
  rw [hk] at hout
  simp only [if_neg h1, Option.some.injEq] at hout
  subst hout
  unfold aggregate_core at hb
  simp only at hb
  obtain ⟨i, hi, hfb⟩ := List.mem_map.mp hb
  have himem : i ∈ rows.map (fun r => bucketOf (originOf rows) (k * 60) r.ts) :=
    mem_dedupNatAux [] _ i hi
  obtain ⟨r0, hr0, he⟩ := List.mem_map.mp himem
  set g := rows.filter (fun r => decide (bucketOf (originOf rows) (k * 60) r.ts = i))
    with hgdef
  have hr0g : r0 ∈ g := List.mem_filter.mpr ⟨hr0, by simp [he]⟩
  have hgne : g ≠ [] := by
    intro hnil
    rw [hnil] at hr0g
    cases hr0g
  obtain ⟨h, t, hg⟩ : ∃ h t, g = h :: t := by
    cases hgg : g with
    | nil => exact absurd hgg hgne
    | cons x y => exact ⟨x, y, rfl⟩
  rw [hg] at hfb
  refine ⟨i, g, hgdef, hgne, ?_, ?_, ?_, ?_, ?_, ?_⟩
  · rw [← hfb]
    simp only [aggGroup]
  · rw [← hfb, hg]
    simp only [aggGroup, List.headD_cons]
  · rw [← hfb, hg]
    simp only [aggGroup, List.getLastD_cons]
  · constructor
    · rw [← hfb, hg]
      simp only [aggGroup]
      rcases foldl_qmax_mem (fun r => r.high) t h.high with hcase | ⟨r, hrt, heq⟩
      · rw [hcase]
        exact List.mem_map_of_mem _ (List.mem_cons_self h t)
      · rw [heq]
        exact List.mem_map_of_mem _ (List.mem_cons_of_mem h hrt)
    · intro r hrg
      rw [hg] at hrg
      rw [← hfb]
      simp only [aggGroup]
      cases hrg with
      | head => exact (foldl_qmax_le (fun r => r.high) t h.high).1
      | tail _ h2 => exact (foldl_qmax_le (fun r => r.high) t h.high).2 r h2
  · constructor
    · rw [← hfb, hg]
      simp only [aggGroup]
      rcases foldl_qmin_mem (fun r => r.low) t h.low with hcase | ⟨r, hrt, heq⟩
      · rw [hcase]
        exact List.mem_map_of_mem _ (List.mem_cons_self h t)
      · rw [heq]
        exact List.mem_map_of_mem _ (List.mem_cons_of_mem h hrt)
    · intro r hrg
      rw [hg] at hrg
      rw [← hfb]
      simp only [aggGroup]
      cases hrg with
      | head => exact (foldl_qmin_le (fun r => r.low) t h.low).1
      | tail _ h2 => exact (foldl_qmin_le (fun r => r.low) t h.low).2 r h2
  · rw [← hfb, hg]
    simp only [aggGroup]
    rw [foldl_add_volume]
    rw [zero_add]

end ChartData

namespace ChartData

/-- Timestamp of the i-th scenario bar: 2024-01-17 09:30 + i minutes. -/
def scnTs (i : Nat) : Nat := wedDay * 86400 + 9 * 3600 + 1800 + i * 60

/-- Five 1-minute bars, 2024-01-17 09:30-09:34, volume 100 each. -/
def rows5 : List Row :=
  [ { ts := scnTs 0, open_ := 10, high := 15, low := 9, close := 11, volume := 100 },
    { ts := scnTs 1, open_ := 11, high := 16, low := 10, close := 12, volume := 100 },
    { ts := scnTs 2, open_ := 12, high := 17, low := 11, close := 13, volume := 100 },
    { ts := scnTs 3, open_ := 13, high := 14, low := 8, close := 12, volume := 100 },
    { ts := scnTs 4, open_ := 12, high := 13, low := 11, close := 12, volume := 100 } ]

/-- Expected single 5-minute bar for the scenario. -/
def bar5min : Row :=
  { ts := scnTs 0, open_ := 10, high := 17, low := 8, close := 12, volume := 500 }

/-- Witness for C2: the five-bar 09:30-09:34 scenario resampled to
`"5min"` yields exactly one bar — first open, max high, min low, last
close, volume 500 — and the bucket theorem applies to it. -/
theorem aggregate_bars_bucket_ohlcv_witness :
    parseFreqMinutes "5min" = some 5 ∧
    aggregate_bars rows5 "5min" = some [bar5min] ∧
    (∃ i g, g = rows5.filter (fun r => decide (bucketOf (originOf rows5) (5 * 60) r.ts = i)) ∧
      g ≠ [] ∧
      bar5min.ts = originOf rows5 + i * (5 * 60) ∧
      bar5min.open_ = (g.headD default).open_ ∧
      bar5min.close = (g.getLastD default).close ∧
      (bar5min.high ∈ g.map (fun r => r.high) ∧ ∀ r ∈ g, r.high ≤ bar5min.high) ∧
      (bar5min.low ∈ g.map (fun r => r.low) ∧ ∀ r ∈ g, bar5min.low ≤ r.low) ∧
      bar5min.volume = (g.map (fun r => r.volume)).sum) := by
  have hk : parseFreqMinutes "5min" = some 5 := by decide
  have h1 : ("5min" : String) ≠ "1min" := by decide
  have hout : aggregate_bars rows5 "5min" = some [bar5min] := by
    unfold aggregate_bars
    rw [hk]
    simp only [if_neg h1, Option.some.injEq]
    norm_num [aggregate_core, dedupNat, dedupNatAux, bucketOf, originOf, minTs, dayOf,
      aggGroup, qmax, qmin, rows5, scnTs, wedDay, bar5min, Nat.min_def, Nat.max_def]
  refine ⟨hk, hout, ?_⟩
  exact aggregate_bars_bucket_ohlcv rows5 "5min" 5 [bar5min] bar5min hk h1 hout (by simp)

end ChartData

namespace ChartData

/-! ### C6 -/

/-- Rows surviving `dropDupTsAux` come from the input list. -/
theorem mem_dropDupTsAux (seen : List Nat) (l : List Row) (x : Row)
    (h : x ∈ dropDupTsAux seen l) : x ∈ l := by
  induction l generalizing seen with
  | nil => cases h
  | cons a rest ih =>
    unfold dropDupTsAux at h
    by_cases hc : seen.contains a.ts = true
    · rw [if_pos hc] at h
      exact List.mem_cons_of_mem _ (ih _ h)
    · rw [if_neg hc] at h
      cases h with
      | head => exact List.mem_cons_self _ _
      | tail _ h2 => exact List.mem_cons_of_mem _ (ih _ h2)

/-- Rows surviving `dropDupTsAux` have timestamps outside `seen`. -/
theorem not_seen_of_mem_dropDupTsAux (seen : List Nat) (l : List Row) (x : Row)
    (h : x ∈ dropDupTsAux seen l) : ¬ x.ts ∈ seen := by
  induction l generalizing seen with
  | nil => cases h
  | cons a rest ih =>
    unfold dropDupTsAux at h
    by_cases hc : seen.contains a.ts = true
    · rw [if_pos hc] at h
      exact ih seen h
    · rw [if_neg hc] at h
      cases h with
      | head =>
        intro hm
        exact hc (by simpa using hm)
      | tail _ h2 =>
        intro hm
        exact ih (a.ts :: seen) h2 (List.mem_cons_of_mem _ hm)

/-- Deduplicating a non-decreasing row list yields strictly increasing
timestamps. -/
theorem pairwise_lt_dropDupTsAux (seen : List Nat) (l : List Row)
    (hs : List.Pairwise rle l) :
    List.Pairwise (fun a b : Row => a.ts < b.ts) (dropDupTsAux seen l) := by
  induction l generalizing seen with
  | nil => exact List.Pairwise.nil
  | cons a rest ih =>
    cases hs with
    | cons ha hrest =>
      unfold dropDupTsAux
      by_cases hc : seen.contains a.ts = true
      · rw [if_pos hc]
        exact ih seen hrest
      · rw [if_neg hc]
        refine List.Pairwise.cons ?_ (ih (a.ts :: seen) hrest)
        intro x hx
        have hmem : x ∈ rest := mem_dropDupTsAux _ _ _ hx
        have hle : a.ts ≤ x.ts := ha x hmem
        have hns : ¬ x.ts ∈ (a.ts :: seen) := not_seen_of_mem_dropDupTsAux _ _ _ hx
        have hne : x.ts ≠ a.ts := by
          intro he
          exact hns (by rw [he]; exact List.mem_cons_self _ _)
        omega

/-- `_filter_trading_days` preserves any pairwise relation. -/
theorem filter_trading_days_pairwise {R : Row → Row → Prop} (cal : Nat → Bool)
    (df : List Row) (h : List.Pairwise R df) :
    List.Pairwise R (filter_trading_days cal df) := by
  unfold filter_trading_days
  split
  · exact h
  · exact h.filter _

/-- Cache loads always have strictly increasing (hence unique)
timestamps: sorted, deduplicated, and only filtered afterwards. -/
theorem load_bars_from_cache_pairwise_lt (cal : Nat → Bool) (segs : List Segment)
    (start end_ : Nat) :
    List.Pairwise (fun a b : Row => a.ts < b.ts)
      (load_bars_from_cache cal segs start end_) := by
  unfold load_bars_from_cache
  dsimp only
  split
  · exact List.Pairwise.nil
  · have h1 : List.Pairwise rle
        (sortTs (((segs.filter (fun s =>
          decide (start ≤ s.fileEnd) && decide (s.fileStart ≤ end_)))).flatMap
            (fun s => s.rows))) :=
      List.sorted_insertionSort rle _
    have h2 := pairwise_lt_dropDupTsAux [] _ h1
    exact filter_trading_days_pairwise cal _ ((h2.filter _).filter _)

/-- The `"1min"` encode stage maps a non-decreasing row series to a
non-decreasing wire `time` sequence. -/
theorem fetchEncode_pairwise_le (cal : Nat → Bool) (df : List Row)
    (h : List.Pairwise rle df) :
    List.Pairwise (fun a b : JBar => a.time ≤ b.time)
      ((fetchEncode cal "1min" df).getD []) := by
  unfold fetchEncode
  split
  · exact List.Pairwise.nil
  · dsimp only
    split
    · exact List.Pairwise.nil
    · rw [if_pos rfl]
      simp only [Option.getD_some]
      unfold bars_to_json
      refine (filter_trading_days_pairwise cal df h).map encodeBar ?_
      intro a b hab
      rw [encodeBar_eq_specWireBar, encodeBar_eq_specWireBar]
      exact hab

/-- C6 amended: a cache-loaded series always has strictly increasing,
unique timestamps; the orchestrator's combined series after appending a
provider tail to a non-empty cache result is only sorted non-decreasing
— its wire `time` values are non-decreasing, but duplicates are not
removed on that path. -/
theorem fetch_bars_output_time_sorted (cal : Nat → Bool) (segs : List Segment)
    (start end_ : Nat) (m : Manager) :
    List.Pairwise (fun a b : Row => a.ts < b.ts)
      (load_bars_from_cache cal segs start end_) ∧
    (load_bars_from_cache cal segs start end_ ≠ [] →
      List.Pairwise (fun a b : JBar => a.time ≤ b.time)
        (((fetch_bars cal start end_ "1min" (some segs) (some m)).1).getD [])) := by
  refine ⟨load_bars_from_cache_pairwise_lt cal segs start end_, ?_⟩
  intro hne
  have hie : (load_bars_from_cache cal segs start end_).isEmpty = false := by
    cases h : load_bars_from_cache cal segs start end_
    · exact absurd h hne
    · rfl
  have hcache : List.Pairwise rle (load_bars_from_cache cal segs start end_) :=
    (load_bars_from_cache_pairwise_lt cal segs start end_).imp le_of_lt
  have hplan : List.Pairwise rle (fetchPlan cal start end_ (some segs) (some m)).1 := by
    unfold fetchPlan
    simp only [hie, Bool.false_eq_true, if_false]
    split
    · split
      · exact hcache
      · exact List.sorted_insertionSort rle _
    · exact hcache
  exact fetchEncode_pairwise_le cal _ hplan

/-- Provider bar for the tail request `2024-01-18 .. 2024-01-18` whose
ET-normalized timestamp collides with the cached 20:00 bar (e.g. a bar
stamped 2024-01-18 01:00 UTC converts to 2024-01-17 20:00 ET). -/
def rowDup : Row := mkRow (wedDay * 86400 + 20 * 3600) 101 900

/-- Manager answering the tail request with the colliding bar. -/
def mDup : Manager := fun s _ => if s = 19740 then [rowDup] else []

/-- Counterexample to C6: fetching `2024-01-17 .. 2024-01-18` with a
cache holding the 20:00 bar and a provider returning a bar with the same
ET timestamp yields wire output whose `time` values are `[t, t]` — not
strictly increasing, not unique: the append path sorts but never
deduplicates. -/
theorem fetch_bars_appended_duplicate_timestamp :
    (((fetch_bars weekdayCal 19739 19740 "1min" (some [seg2000]) (some mDup)).1).getD []).map
        (fun j => j.time) = [1705521600, 1705521600] ∧
    ¬ List.Pairwise (fun a b : JBar => a.time < b.time)
      (((fetch_bars weekdayCal 19739 19740 "1min" (some [seg2000]) (some mDup)).1).getD []) := by
  decide

/-- Witness for amended C6 at a concrete non-empty cache. -/
theorem fetch_bars_output_time_sorted_witness :
    load_bars_from_cache weekdayCal [segWed] 19739 19741 ≠ [] ∧
    List.Pairwise (fun a b : Row => a.ts < b.ts)
      (load_bars_from_cache weekdayCal [segWed] 19739 19741) ∧
    List.Pairwise (fun a b : JBar => a.time ≤ b.time)
      (((fetch_bars weekdayCal 19739 19741 "1min" (some [segWed]) (some mEmpty)).1).getD []) :=
  ⟨by decide,
    (fetch_bars_output_time_sorted weekdayCal [segWed] 19739 19741 mEmpty).1,
    (fetch_bars_output_time_sorted weekdayCal [segWed] 19739 19741 mEmpty).2 (by decide)⟩

end ChartData
